import Mathlib

/-!
# Verification of `qualys_parser.py`

Shallow embedding of the Qualys Linux user-account parser.  Python strings are
modelled as `List Char` (ASCII case folding for the `re.IGNORECASE` flag and for
`str.strip` whitespace — every string the program compares against is ASCII).
The file first translates the source functions, then states and proves the
specification claims about them.
-/

set_option maxRecDepth 8192

/-- Convert a Lean string literal to the `List Char` representation used by the
embedding. -/
def chars (s : String) : List Char := s.data

/-! ## `is_valid_username` (src lines 12–27)

The Python code checks `re.match(r'^[a-z_][a-z0-9_-]*[$]?$', username, re.IGNORECASE)`
and `len(username) <= 32`. -/

/-- Character class `[a-z_]` of the regex, under `re.IGNORECASE` (ASCII folding):
an ASCII letter of either case, or an underscore. -/
def rxFirst (c : Char) : Bool := (Char.toLower c).isLower || c == '_'

/-- Character class `[a-z0-9_-]` of the regex, under `re.IGNORECASE`. -/
def rxRest (c : Char) : Bool := rxFirst c || c.isDigit || c == '-'

/-- Matcher for the part of the regex after the first character:
`[a-z0-9_-]*[$]?` followed by the end anchor.  Every character must be in
`rxRest`, except that the final character may instead be a literal `'$'`. -/
def matchesTail : List Char → Bool
  | [] => true
  | [c] => rxRest c || c == '$'
  | c :: c2 :: rest => rxRest c && matchesTail (c2 :: rest)

/-- Full-string matcher for `[a-z_][a-z0-9_-]*[$]?`: nonempty, first character in
`rxFirst`, remainder as in `matchesTail`. -/
def matchesCore : List Char → Bool
  | [] => false
  | c :: rest => rxFirst c && matchesTail rest

/-- Embedding of `re.match(r'^[a-z_][a-z0-9_-]*[$]?$', s, re.IGNORECASE)` being
truthy.  In Python the `$` anchor matches at the end of the string *or just
before a newline at the end of the string*, so a single trailing `'\n'` is
tolerated by the regex engine. -/
def reMatchUsername (s : List Char) : Bool :=
  matchesCore s ||
    (match s.getLast? with
     | some c => (c == '\n') && matchesCore s.dropLast
     | none => false)

/-- Embedding of `is_valid_username` (src lines 12–27): reject empty, reject a
regex mismatch, reject length > 32, otherwise accept. -/
def is_valid_username (username : List Char) : Bool :=
  if username = [] then false
  else if !(reMatchUsername username) then false
  else if username.length > 32 then false
  else true

/-- Spec-side validity predicate, written from the specification's words for
comparison with the code (§4.3): valid iff non-empty, the pattern
`[a-z_][a-z0-9_-]*[$]?` (case-insensitive) matches the WHOLE string, and the
length is at most 32.  Unlike the code's regex engine it grants no concession
to a trailing newline. -/
def spec_valid_username (s : List Char) : Bool :=
  decide (s ≠ []) && matchesCore s && decide (s.length ≤ 32)

/-! ## Line-break normalization (src lines 87–88)

`results.replace('\\r\\n', '\n').replace('\\n', '\n').replace('\r\n', '\n').replace('\r', '\n')`
followed by `results.split('\n')`.  Each `str.replace` scans left to right over
non-overlapping occurrences; each pass below is that scan for its fixed
pattern. -/

/-- `str.replace('\\r\\n', '\n')`: rewrite each occurrence of the four
characters backslash, `r`, backslash, `n` to a line feed. -/
def replEscRN : List Char → List Char
  | [] => []
  | '\\' :: 'r' :: '\\' :: 'n' :: rest => '\n' :: replEscRN rest
  | c :: rest => c :: replEscRN rest

/-- `str.replace('\\n', '\n')`: rewrite each occurrence of backslash, `n` to a
line feed. -/
def replEscN : List Char → List Char
  | [] => []
  | '\\' :: 'n' :: rest => '\n' :: replEscN rest
  | c :: rest => c :: replEscN rest

/-- `str.replace('\r\n', '\n')`: rewrite each CRLF to a line feed. -/
def replCRLF : List Char → List Char
  | [] => []
  | '\r' :: '\n' :: rest => '\n' :: replCRLF rest
  | c :: rest => c :: replCRLF rest

/-- `str.replace('\r', '\n')`: rewrite each CR to a line feed. -/
def replCR : List Char → List Char
  | [] => []
  | '\r' :: rest => '\n' :: replCR rest
  | c :: rest => c :: replCR rest

/-- The full replacement chain of src line 87, in source order. -/
def normalizeResults (s : List Char) : List Char :=
  replCR (replCRLF (replEscN (replEscRN s)))

/-- Src lines 87–88: normalize the line breaks, then `split('\n')` (Python
`str.split` on a separator keeps empty pieces, as does `List.splitOn`). -/
def normalizeSplit (s : List Char) : List (List Char) :=
  (normalizeResults s).splitOn '\n'

/-! ## Row processing (src lines 65–111) -/

/-- ASCII whitespace recognized by Python `str.strip()`. -/
def pyIsSpace (c : Char) : Bool :=
  c == ' ' || c == '\t' || c == '\n' || c == '\r' || c == '\x0b' || c == '\x0c'

/-- Embedding of Python `str.strip()`: drop whitespace from both ends. -/
def pyStrip (s : List Char) : List Char :=
  (s.dropWhile pyIsSpace).rdropWhile pyIsSpace

/-- Embedding of Python `str.lower()` (ASCII). -/
def pyLower (s : List Char) : List Char := s.map Char.toLower

/-- The literal noise-token list of src line 99. -/
def noiseTokens : List (List Char) :=
  [chars "username", chars "results", chars "user", chars "name"]

/-- Src line 99: `username.lower() in ['username', 'results', 'user', 'name']`. -/
def isNoise (username : List Char) : Bool := noiseTokens.contains (pyLower username)

/-- One input record: the `IP` field and the `Results` field. -/
structure Row where
  ip : List Char
  results : List Char

/-- The per-candidate-line body of the loop at src lines 91–106: strip the
line; skip if empty; skip if a noise token; emit `(ip, username)` if the
validator accepts. -/
def processLine (ip line : List Char) : Option (List Char × List Char) :=
  let username := pyStrip line
  if username = [] then none
  else if isNoise username then none
  else if is_valid_username username then some (ip, username)
  else none

/-- Warnings written to stderr by `process_rows`. -/
inductive Diag where
  | noIP (rowIdx : Nat)
  | noResults (rowIdx : Nat) (ip : List Char)
  | noUsers (ip : List Char)
deriving DecidableEq

/-- The body of the row loop at src lines 72–109 for one row: skip (with a
warning) on an empty stripped IP, skip (with a warning) on an empty results
field, otherwise normalize, split and filter the candidate lines, warning when
no username was emitted for the row. -/
def processRow (rowIdx : Nat) (row : Row) : List (List Char × List Char) × List Diag :=
  let ip := pyStrip row.ip
  if ip = [] then ([], [Diag.noIP rowIdx])
  else if row.results = [] then ([], [Diag.noResults rowIdx ip])
  else
    let out := (normalizeSplit row.results).filterMap (processLine ip)
    (out, if out = [] then [Diag.noUsers ip] else [])

/-- The row loop of `process_rows`, accumulating emitted pairs and warnings;
`rowIdx` is the 1-based row counter of src line 73. -/
def processRowsAux : Nat → List Row → List (List Char × List Char) × List Diag
  | _, [] => ([], [])
  | rowIdx, row :: rest =>
    ((processRow rowIdx row).1 ++ (processRowsAux (rowIdx + 1) rest).1,
     (processRow rowIdx row).2 ++ (processRowsAux (rowIdx + 1) rest).2)

/-- The data rows written by `process_rows` (src lines 65–111). -/
def process_rows (rows : List Row) : List (List Char × List Char) :=
  (processRowsAux 1 rows).1

/-- The warnings printed by `process_rows`. -/
def processDiags (rows : List Row) : List Diag :=
  (processRowsAux 1 rows).2

/-! ## Orchestration (src lines 29–63 and 113–131) -/

/-- The parsed CSV input: header field names plus data rows. -/
structure CsvInput where
  fieldnames : List (List Char)
  rows : List Row

/-- The observable state of the input side of a run: the input file is missing
(`FileNotFoundError`), or it parses as a CSV, possibly with an unexpected
exception striking after `k` rows were processed (the generic `except` of src
line 61). -/
inductive InputState where
  | missing
  | csv (input : CsvInput) (fault : Option Nat)

/-- The error messages `parse_qualys_csv` can print to stderr. -/
inductive RunError where
  | fileNotFound
  | badColumns (found : List (List Char))
  | unexpected
deriving DecidableEq

/-- Src line 40: both `'IP'` and `'Results'` must occur among the field names,
by exact (case-sensitive) match. -/
def headerOk (fns : List (List Char)) : Bool :=
  fns.contains (chars "IP") && fns.contains (chars "Results")

/-- What was written to the output destination: the header row and the data
rows. -/
structure Written where
  headerRow : List (List Char)
  dataRows : List (List Char × List Char)
deriving DecidableEq

/-- The fixed output header of src lines 49/53. -/
def outHeader : List (List Char) := [chars "IP", chars "Username"]

/-- Embedding of `parse_qualys_csv` (src lines 29–63): returns the boolean
result, what was written to the output destination (`none` when the output was
never opened or written), and the error reported, if any.  A missing file or a
failed column check writes nothing; an unexpected fault after `k` rows leaves
the header plus the first `k` rows' output behind and returns `False`. -/
def parse_qualys_csv (inp : InputState) : Bool × Option Written × Option RunError :=
  match inp with
  | InputState.missing => (false, none, some RunError.fileNotFound)
  | InputState.csv input fault =>
    if headerOk input.fieldnames then
      match fault with
      | none => (true, some ⟨outHeader, process_rows input.rows⟩, none)
      | some k => (false, some ⟨outHeader, process_rows (input.rows.take k)⟩,
                   some RunError.unexpected)
    else (false, none, some (RunError.badColumns input.fieldnames))

/-- Embedding of `main` (src lines 113–131): usage error when fewer than two
`argv` entries, otherwise exit 0 iff `parse_qualys_csv` returned `True`. -/
def mainExit (argc : Nat) (inp : InputState) : Nat :=
  if argc < 2 then 1
  else if (parse_qualys_csv inp).1 then 0 else 1

/-- Denotational count used by claim C3: candidate lines of a row whose
stripped text is not a noise token and passes the validator. -/
def validCandidates (r : Row) : Nat :=
  ((normalizeSplit r.results).filter
    (fun l => !(isNoise (pyStrip l)) && is_valid_username (pyStrip l))).length

/-- Denotational count used by claim C5: candidate lines of a row whose
stripped text passes the validator (noise tokens included). -/
def candidateCount (r : Row) : Nat :=
  ((normalizeSplit r.results).filter (fun l => is_valid_username (pyStrip l))).length

/-- A character that takes no part in any line-break encoding: not a
backslash, not CR, not LF. -/
def cleanChar (c : Char) : Bool := !(c == '\\') && !(c == '\r') && !(c == '\n')

/-- Join a list of logical lines with a separator (the input construction of
claim C2). -/
def joinSep (sep : List Char) : List (List Char) → List Char
  | [] => []
  | [l] => l
  | l :: l2 :: rest => l ++ (sep ++ joinSep sep (l2 :: rest))

/-! ## Helper lemmas -/

theorem dropWhile_head_false {α : Type} {p : α → Bool} :
    ∀ {l : List α} {c : α} {t : List α}, l.dropWhile p = c :: t → p c = false := by
  intro l
  induction l with
  | nil => intro c t h; cases h
  | cons a l ih =>
    intro c t h
    rw [List.dropWhile_cons] at h
    by_cases ha : p a = true
    · exact ih (by rwa [if_pos ha] at h)
    · rw [if_neg ha] at h
      cases h
      exact Bool.not_eq_true _ |>.mp ha

theorem pyStrip_idem (s : List Char) : pyStrip (pyStrip s) = pyStrip s := by
  unfold pyStrip
  have hdw : ((s.dropWhile pyIsSpace).rdropWhile pyIsSpace).dropWhile pyIsSpace
      = (s.dropWhile pyIsSpace).rdropWhile pyIsSpace := by
    cases ht : (s.dropWhile pyIsSpace).rdropWhile pyIsSpace with
    | nil => simp
    | cons c t' =>
      obtain ⟨r, hr⟩ := List.rdropWhile_prefix pyIsSpace (s.dropWhile pyIsSpace)
      have h2 : s.dropWhile pyIsSpace = c :: (t' ++ r) := by
        rw [← hr, ht]; simp
      have hc : pyIsSpace c = false := dropWhile_head_false h2
      rw [List.dropWhile_cons, hc]
      simp
  rw [hdw, List.rdropWhile_idempotent]

theorem pyStrip_eq_nil {s : List Char} (h : ∀ c ∈ s, pyIsSpace c = true) :
    pyStrip s = [] := by
  unfold pyStrip
  have hd : s.dropWhile pyIsSpace = [] :=
    List.dropWhile_eq_nil_iff.mpr (fun x hx => h x hx)
  rw [hd]
  simp

theorem processLine_eq_some {ip line : List Char} {p : List Char × List Char}
    (h : processLine ip line = some p) :
    p = (ip, pyStrip line) ∧ isNoise (pyStrip line) = false ∧
      is_valid_username (pyStrip line) = true := by
  by_cases h1 : pyStrip line = []
  · simp [processLine, h1] at h
  · by_cases h2 : isNoise (pyStrip line) = true
    · simp [processLine, h1, h2] at h
    · by_cases h3 : is_valid_username (pyStrip line) = true
      · simp [processLine, h1, h2, h3] at h
        exact ⟨h.symm, by simpa using h2, h3⟩
      · simp [processLine, h1, h2, h3] at h

theorem processLine_isSome (ip line : List Char) :
    (processLine ip line).isSome
      = (!(isNoise (pyStrip line)) && is_valid_username (pyStrip line)) := by
  by_cases h1 : pyStrip line = []
  · simp [processLine, h1]
    decide
  · by_cases h2 : isNoise (pyStrip line) = true
    · simp [processLine, h1, h2]
    · by_cases h3 : is_valid_username (pyStrip line) = true
      · simp [processLine, h1, h2, h3]
      · simp [processLine, h1, h2, h3]

theorem length_filterMap_eq_length_filter {α β : Type} (f : α → Option β) (q : α → Bool)
    (h : ∀ a, (f a).isSome = q a) :
    ∀ l : List α, (l.filterMap f).length = (l.filter q).length := by
  intro l
  induction l with
  | nil => rfl
  | cons a t ih =>
    cases hfa : f a with
    | none =>
      have hqa : q a = false := by rw [← h a, hfa]; rfl
      simp [List.filterMap_cons, hfa, List.filter_cons, hqa, ih]
    | some b =>
      have hqa : q a = true := by rw [← h a, hfa]; rfl
      simp [List.filterMap_cons, hfa, List.filter_cons, hqa, ih]

theorem length_filterMap_le_length_filter {α β : Type} (f : α → Option β) (q : α → Bool)
    (h : ∀ a, (f a).isSome = true → q a = true) :
    ∀ l : List α, (l.filterMap f).length ≤ (l.filter q).length := by
  intro l
  induction l with
  | nil => exact Nat.le_refl 0
  | cons a t ih =>
    cases hfa : f a with
    | none =>
      cases hqa : q a with
      | false => simpa [List.filterMap_cons, hfa, List.filter_cons, hqa] using ih
      | true =>
        simp only [List.filterMap_cons, hfa, List.filter_cons, hqa, if_pos, List.length_cons]
        exact Nat.le_succ_of_le ih
    | some b =>
      have hqa : q a = true := h a (by rw [hfa]; rfl)
      simpa [List.filterMap_cons, hfa, List.filter_cons, hqa] using ih

theorem filterMap_sublist_map {α β : Type} (f : α → Option β) (g : α → β)
    (h : ∀ a, f a = none ∨ f a = some (g a)) :
    ∀ l : List α, (l.filterMap f).Sublist (l.map g) := by
  intro l
  induction l with
  | nil => simp
  | cons a t ih =>
    rcases h a with ha | ha
    · rw [List.filterMap_cons, ha, List.map_cons]
      exact ih.cons _
    · rw [List.filterMap_cons, ha, List.map_cons]
      exact ih.cons₂ _

theorem processRow_fst (idx : Nat) (row : Row) :
    (processRow idx row).1 =
      if pyStrip row.ip = [] then []
      else if row.results = [] then []
      else (normalizeSplit row.results).filterMap (processLine (pyStrip row.ip)) := by
  simp only [processRow]
  split_ifs <;> rfl

theorem processRow_snd (idx : Nat) (row : Row) :
    (processRow idx row).2 =
      if pyStrip row.ip = [] then [Diag.noIP idx]
      else if row.results = [] then [Diag.noResults idx (pyStrip row.ip)]
      else if (normalizeSplit row.results).filterMap (processLine (pyStrip row.ip)) = []
        then [Diag.noUsers (pyStrip row.ip)] else [] := by
  simp only [processRow]
  split_ifs <;> rfl

theorem mem_processRowsAux_fst {p : List Char × List Char} :
    ∀ (idx : Nat) (rows : List Row), p ∈ (processRowsAux idx rows).1 →
      ∃ row ∈ rows, ∃ line, processLine (pyStrip row.ip) line = some p := by
  intro idx rows
  induction rows generalizing idx with
  | nil => intro h; simp [processRowsAux] at h
  | cons r rest ih =>
    intro h
    simp only [processRowsAux, List.mem_append] at h
    rcases h with h | h
    · rw [processRow_fst] at h
      split_ifs at h with h1 h2
      · simp at h
      · simp at h
      · obtain ⟨line, _, hsome⟩ := List.mem_filterMap.mp h
        exact ⟨r, by simp, line, hsome⟩
    · obtain ⟨row, hrow, hex⟩ := ih (idx + 1) h
      exact ⟨row, by simp [hrow], hex⟩

theorem processRow_length {idx : Nat} {row : Row} (h : pyStrip row.ip ≠ []) :
    (processRow idx row).1.length = validCandidates row := by
  rw [processRow_fst, if_neg h]
  by_cases hr : row.results = []
  · rw [if_pos hr]
    simp [validCandidates, hr]
    rfl
  · rw [if_neg hr]
    exact (length_filterMap_eq_length_filter _ _
      (fun line => processLine_isSome (pyStrip row.ip) line) _)

theorem processRowsAux_length :
    ∀ (idx : Nat) (rows : List Row), (∀ r ∈ rows, pyStrip r.ip ≠ []) →
      (processRowsAux idx rows).1.length = (rows.map validCandidates).sum := by
  intro idx rows
  induction rows generalizing idx with
  | nil => intro _; rfl
  | cons r rest ih =>
    intro h
    simp only [processRowsAux, List.length_append, List.map_cons, List.sum_cons]
    rw [processRow_length (h r (by simp)), ih (idx + 1) (fun x hx => h x (by simp [hx]))]

theorem processRow_length_le (idx : Nat) (row : Row) :
    (processRow idx row).1.length ≤ candidateCount row := by
  rw [processRow_fst]
  split_ifs with h1 h2
  · exact Nat.zero_le _
  · exact Nat.zero_le _
  · apply length_filterMap_le_length_filter
    intro line hsome
    rw [processLine_isSome] at hsome
    exact (Bool.and_eq_true _ _ |>.mp hsome).2

theorem processRow_sublist (idx : Nat) (row : Row) :
    (processRow idx row).1.Sublist
      ((normalizeSplit row.results).map (fun l => (pyStrip row.ip, pyStrip l))) := by
  rw [processRow_fst]
  split_ifs with h1 h2
  · exact List.nil_sublist _
  · exact List.nil_sublist _
  · apply filterMap_sublist_map
    intro line
    simp only [processLine]
    split_ifs <;> simp

theorem reMatchUsername_eq (s : List Char) :
    reMatchUsername s = true ↔
      matchesCore s = true ∨
        (s.getLast? = some '\n' ∧ matchesCore s.dropLast = true) := by
  unfold reMatchUsername
  cases h : s.getLast? with
  | none => simp
  | some c => simp

theorem is_valid_username_iff (s : List Char) :
    is_valid_username s = true ↔
      s ≠ [] ∧ s.length ≤ 32 ∧ reMatchUsername s = true := by
  unfold is_valid_username
  by_cases h1 : s = []
  · simp [h1]
  · rw [if_neg h1]
    cases hb : reMatchUsername s with
    | false => simp [h1]
    | true =>
      simp only [Bool.not_true, Bool.false_eq_true, if_false]
      by_cases h3 : s.length > 32
      · simp [h3, h1]
      · simp [h3, h1]
        omega

/-! ## The claims -/

/-- C1 (counterexample): at the concrete input `"root\n"` the code's validator
returns `true`, while the claimed characterisation — the pattern must match the
whole string — rejects it (Python's `$` anchor tolerates one trailing
newline). -/
theorem claim_C1_counterexample :
    is_valid_username (chars "root\n") = true ∧
      spec_valid_username (chars "root\n") = false := by
  constructor
  · decide
  · decide

/-- C1 (amended): `is_valid_username s` returns true iff `s` is non-empty, has
length at most 32, and either the pattern `[a-z_][a-z0-9_-]*[$]?`
(case-insensitive) matches the whole string, or `s` ends in a newline and the
pattern matches all of `s` but that final newline.  Any string longer than 32
characters is invalid; `root`, `_svc` and `user$` are valid; `3root`, the empty
string and `bad user` are invalid. -/
theorem claim_C1_amended :
    (∀ s : List Char, is_valid_username s = true ↔
      s ≠ [] ∧ s.length ≤ 32 ∧
        (matchesCore s = true ∨
          (s.getLast? = some '\n' ∧ matchesCore s.dropLast = true))) ∧
    (∀ s : List Char, 32 < s.length → is_valid_username s = false) ∧
    is_valid_username (chars "root") = true ∧
    is_valid_username (chars "_svc") = true ∧
    is_valid_username (chars "user$") = true ∧
    is_valid_username (chars "3root") = false ∧
    is_valid_username (chars "") = false ∧
    is_valid_username (chars "bad user") = false := by
  refine ⟨?_, ?_, by decide, by decide, by decide, by decide, by decide, by decide⟩
  · intro s
    rw [is_valid_username_iff s, reMatchUsername_eq s]
  · intro s h
    unfold is_valid_username
    by_cases h1 : s = []
    · simp [h1]
    · rw [if_neg h1]
      cases hb : reMatchUsername s with
      | false => simp
      | true => simp [h]

/-- C1 (witness for the amended claim): the amended theorem applied to the
33-character all-lowercase string. -/
theorem claim_C1_witness :
    is_valid_username (List.replicate 33 'a') = false :=
  claim_C1_amended.2.1 (List.replicate 33 'a') (by decide)

/-- C3: when every input row has a non-blank host identifier (the claim's
"valid inputs"), the number of emitted rows equals the number of candidate
lines, over all rows, whose stripped text passes the username validator and is
not a noise token. -/
theorem claim_C3 :
    ∀ rows : List Row, (∀ r ∈ rows, pyStrip r.ip ≠ []) →
      (process_rows rows).length = (rows.map validCandidates).sum := by
  intro rows h
  exact processRowsAux_length 1 rows h

/-- C3 (witness): the count equality at a concrete one-row input. -/
theorem claim_C3_witness :
    (process_rows [⟨chars "1.1.1.1", chars "root\nResults"⟩]).length =
      (([⟨chars "1.1.1.1", chars "root\nResults"⟩] : List Row).map validCandidates).sum :=
  claim_C3 [⟨chars "1.1.1.1", chars "root\nResults"⟩] (by decide)

/-- C4: a candidate whose stripped text equals a noise token (case-insensitively)
never appears in the output — every emitted username fails `isNoise` — and the
spec's concrete example row produces exactly `(10.0.0.1, root)` and
`(10.0.0.1, admin)`, with the `Results` line filtered out. -/
theorem claim_C4 :
    (∀ (rows : List Row) (p : List Char × List Char),
       p ∈ process_rows rows → isNoise p.2 = false) ∧
    process_rows [⟨chars "10.0.0.1", chars "root\nadmin\nResults\n"⟩] =
      [(chars "10.0.0.1", chars "root"), (chars "10.0.0.1", chars "admin")] := by
  constructor
  · intro rows p hp
    obtain ⟨row, _, line, hsome⟩ := mem_processRowsAux_fst 1 rows hp
    obtain ⟨hp_eq, hnoise, _⟩ := processLine_eq_some hsome
    rw [hp_eq]
    exact hnoise
  · decide

/-- C4 (witness): the noise-freeness of an output pair at a concrete input. -/
theorem claim_C4_witness :
    isNoise ((chars "10.0.0.1", chars "root") : List Char × List Char).2 = false :=
  claim_C4.1 [⟨chars "10.0.0.1", chars "root\nadmin\nResults\n"⟩]
    (chars "10.0.0.1", chars "root") (by decide)

/-- C5: the number of output rows is at most the total number of candidate
lines that pass validation, and the output is a subsequence of the candidate
lines taken in input-row order and, within a row, in order of appearance in the
results text. -/
theorem claim_C5 :
    ∀ rows : List Row,
      (process_rows rows).length ≤ (rows.map candidateCount).sum ∧
      (process_rows rows).Sublist
        (rows.flatMap fun r =>
          (normalizeSplit r.results).map (fun l => (pyStrip r.ip, pyStrip l))) := by
  intro rows
  have H : ∀ (idx : Nat) (rs : List Row),
      (processRowsAux idx rs).1.length ≤ (rs.map candidateCount).sum ∧
      (processRowsAux idx rs).1.Sublist
        (rs.flatMap fun r =>
          (normalizeSplit r.results).map (fun l => (pyStrip r.ip, pyStrip l))) := by
    intro idx rs
    induction rs generalizing idx with
    | nil => exact ⟨Nat.le_refl 0, List.Sublist.refl []⟩
    | cons r rest ih =>
      obtain ⟨ih1, ih2⟩ := ih (idx + 1)
      constructor
      · simp only [processRowsAux, List.length_append, List.map_cons, List.sum_cons]
        exact Nat.add_le_add (processRow_length_le idx r) ih1
      · simp only [processRowsAux, List.flatMap_cons]
        exact List.Sublist.append (processRow_sublist idx r) ih2
  exact H 1 rows

/-- C6: when the header lacks `IP` or `Results`, the run reports the expected
versus found column names, writes nothing to the output, returns `False`, and
the program exits with status 1. -/
theorem claim_C6 :
    ∀ (argc : Nat) (input : CsvInput) (fault : Option Nat),
      headerOk input.fieldnames = false → 2 ≤ argc →
      parse_qualys_csv (InputState.csv input fault) =
        (false, none, some (RunError.badColumns input.fieldnames)) ∧
      mainExit argc (InputState.csv input fault) = 1 := by
  intro argc input fault h ha
  constructor
  · simp [parse_qualys_csv, h]
  · simp [mainExit, parse_qualys_csv, h]

/-- C6 (witness): a header with only an `IP` column aborts with exit 1 and no
output. -/
theorem claim_C6_witness :
    parse_qualys_csv (InputState.csv ⟨[chars "IP"], []⟩ none) =
      (false, none, some (RunError.badColumns [chars "IP"])) ∧
    mainExit 2 (InputState.csv ⟨[chars "IP"], []⟩ none) = 1 :=
  claim_C6 2 ⟨[chars "IP"], []⟩ none (by decide) (by decide)

/-- C7: row-level conditions are recoverable and advisory.  A row with a blank
host identifier is skipped with a warning and the remaining rows are still
processed; a row with an empty results field is skipped with a warning and
contributes zero output rows; a row that emitted zero usernames produces a
warning naming its host; and a run whose header check passed exits 0 no matter
what the rows contain. -/
theorem claim_C7 :
    (∀ (idx : Nat) (r : Row) (rest : List Row), pyStrip r.ip = [] →
       processRowsAux idx (r :: rest) =
         ((processRowsAux (idx + 1) rest).1,
          Diag.noIP idx :: (processRowsAux (idx + 1) rest).2)) ∧
    (∀ (idx : Nat) (r : Row) (rest : List Row), pyStrip r.ip ≠ [] → r.results = [] →
       processRowsAux idx (r :: rest) =
         ((processRowsAux (idx + 1) rest).1,
          Diag.noResults idx (pyStrip r.ip) :: (processRowsAux (idx + 1) rest).2)) ∧
    (∀ (idx : Nat) (r : Row), pyStrip r.ip ≠ [] → r.results ≠ [] →
       (processRow idx r).1 = [] →
       (processRow idx r).2 = [Diag.noUsers (pyStrip r.ip)]) ∧
    (∀ (argc : Nat) (input : CsvInput), 2 ≤ argc → headerOk input.fieldnames = true →
       mainExit argc (InputState.csv input none) = 0) := by
  refine ⟨?_, ?_, ?_, ?_⟩
  · intro idx r rest h
    simp [processRowsAux, processRow, h]
  · intro idx r rest h1 h2
    simp [processRowsAux, processRow, h1, h2]
  · intro idx r h1 h2 h3
    rw [processRow_fst, if_neg h1, if_neg h2] at h3
    rw [processRow_snd, if_neg h1, if_neg h2, if_pos h3]
  · intro argc input ha hh
    simp [mainExit, parse_qualys_csv, hh, show ¬argc < 2 by omega]

/-- C7 (witness): skipping a blank-IP row at a concrete input. -/
theorem claim_C7_witness :
    processRowsAux 1 [⟨[], ['x']⟩] =
      ((processRowsAux 2 []).1, Diag.noIP 1 :: (processRowsAux 2 []).2) :=
  claim_C7.1 1 ⟨[], ['x']⟩ [] (by decide)

/-- C8: the exit status is always 0 or 1, and it is 0 exactly when the
arguments were supplied, the input file was found, the column check passed and
no unexpected error struck — independently of how many usernames were found.
Every run of the (total) orchestrator model yields a deterministic exit
code. -/
theorem claim_C8 :
    ∀ (argc : Nat) (inp : InputState),
      (mainExit argc inp = 0 ∨ mainExit argc inp = 1) ∧
      (mainExit argc inp = 0 ↔
        2 ≤ argc ∧ ∃ input, inp = InputState.csv input none ∧
          headerOk input.fieldnames = true) := by
  intro argc inp
  constructor
  · unfold mainExit
    split_ifs <;> simp
  · cases inp with
    | missing =>
      simp [mainExit, parse_qualys_csv]
    | csv input fault =>
      cases fault with
      | none =>
        by_cases hh : headerOk input.fieldnames = true
        · by_cases ha : argc < 2
          · simp [mainExit, ha, parse_qualys_csv, hh]
          · simp [mainExit, ha, parse_qualys_csv, hh]
            omega
        · simp [mainExit, parse_qualys_csv, hh]
      | some k =>
        by_cases hh : headerOk input.fieldnames = true
        · simp [mainExit, parse_qualys_csv, hh]
        · simp [mainExit, parse_qualys_csv, hh]

/-- C9: the validator is total — on every string it returns one of the two
booleans (the embedding is a total function, mirroring that the Python function
returns on every input and never raises). -/
theorem claim_C9 :
    ∀ s : List Char, is_valid_username s = true ∨ is_valid_username s = false := by
  intro s
  cases h : is_valid_username s
  · exact Or.inr rfl
  · exact Or.inl rfl

/-- C10: host identifier and candidate lines are stripped before any check.  A
whitespace-only IP field is treated as empty and the row is skipped with a
warning; the noise and validity checks read the stripped candidate (stripping
the line first changes nothing); no emitted IP or username carries leading or
trailing whitespace; and a candidate `" root "` is emitted as `root`. -/
theorem claim_C10 :
    (∀ (idx : Nat) (row : Row), (∀ c ∈ row.ip, pyIsSpace c = true) →
       processRow idx row = ([], [Diag.noIP idx])) ∧
    (∀ ip line : List Char, processLine ip line = processLine ip (pyStrip line)) ∧
    (∀ (rows : List Row) (p : List Char × List Char), p ∈ process_rows rows →
       pyStrip p.1 = p.1 ∧ pyStrip p.2 = p.2) ∧
    process_rows [⟨chars "10.0.0.1", chars " root "⟩] =
      [(chars "10.0.0.1", chars "root")] := by
  refine ⟨?_, ?_, ?_, by decide⟩
  · intro idx row h
    have hnil : pyStrip row.ip = [] := pyStrip_eq_nil h
    simp [processRow, hnil]
  · intro ip line
    simp only [processLine, pyStrip_idem]
  · intro rows p hp
    obtain ⟨row, _, line, hsome⟩ := mem_processRowsAux_fst 1 rows hp
    obtain ⟨hp_eq, _, _⟩ := processLine_eq_some hsome
    rw [hp_eq]
    exact ⟨pyStrip_idem _, pyStrip_idem _⟩

/-- C10 (witness): a whitespace-only IP row is skipped with the warning. -/
theorem claim_C10_witness :
    processRow 1 ⟨[' '], ['x']⟩ = ([], [Diag.noIP 1]) :=
  claim_C10.1 1 ⟨[' '], ['x']⟩ (by decide)

/-! ## Line-break encoding lemmas (claim C2) -/

theorem cleanChar_ne {c : Char} (h : cleanChar c = true) :
    c ≠ '\\' ∧ c ≠ '\r' ∧ c ≠ '\n' := by
  simp [cleanChar] at h
  exact ⟨h.1.1, h.1.2, h.2⟩

theorem replEscRN_hit (t : List Char) :
    replEscRN ('\\' :: 'r' :: '\\' :: 'n' :: t) = '\n' :: replEscRN t := rfl

theorem replEscRN_skip {c : Char} (h : c ≠ '\\') (t : List Char) :
    replEscRN (c :: t) = c :: replEscRN t := by
  conv_lhs => unfold replEscRN
  split
  · rename_i heq
    exact absurd heq (List.cons_ne_nil c t)
  · rename_i heq
    injection heq with h1 _
    exact absurd h1 h
  · rename_i heq
    injection heq with h1 h2
    rw [← h1, ← h2]

theorem replEscRN_escn (t : List Char) :
    replEscRN ('\\' :: 'n' :: t) = '\\' :: 'n' :: replEscRN t := by
  conv_lhs => unfold replEscRN
  split
  · rename_i heq
    exact absurd heq (List.cons_ne_nil _ _)
  · rename_i heq
    injection heq with _ h2
    injection h2 with h2 _
    exact absurd h2 (by decide)
  · rename_i heq
    injection heq with h1 h2
    rw [← h1, ← h2, replEscRN_skip (by decide) t]

theorem replEscN_hit (t : List Char) :
    replEscN ('\\' :: 'n' :: t) = '\n' :: replEscN t := rfl

theorem replEscN_skip {c : Char} (h : c ≠ '\\') (t : List Char) :
    replEscN (c :: t) = c :: replEscN t := by
  conv_lhs => unfold replEscN
  split
  · rename_i heq
    exact absurd heq (List.cons_ne_nil c t)
  · rename_i heq
    injection heq with h1 _
    exact absurd h1 h
  · rename_i heq
    injection heq with h1 h2
    rw [← h1, ← h2]

theorem replCRLF_hit (t : List Char) :
    replCRLF ('\r' :: '\n' :: t) = '\n' :: replCRLF t := rfl

theorem replCRLF_skip {c : Char} (h : c ≠ '\r') (t : List Char) :
    replCRLF (c :: t) = c :: replCRLF t := by
  conv_lhs => unfold replCRLF
  split
  · rename_i heq
    exact absurd heq (List.cons_ne_nil c t)
  · rename_i heq
    injection heq with h1 _
    exact absurd h1 h
  · rename_i heq
    injection heq with h1 h2
    rw [← h1, ← h2]

theorem replCRLF_cr {t : List Char} (h : t.head? ≠ some '\n') :
    replCRLF ('\r' :: t) = '\r' :: replCRLF t := by
  conv_lhs => unfold replCRLF
  split
  · rename_i heq
    exact absurd heq (List.cons_ne_nil _ _)
  · rename_i heq
    injection heq with _ h2
    exact absurd (by rw [h2]; rfl) h
  · rename_i heq
    injection heq with h1 h2
    rw [← h1, ← h2]

theorem replCR_hit (t : List Char) :
    replCR ('\r' :: t) = '\n' :: replCR t := rfl

theorem replCR_skip {c : Char} (h : c ≠ '\r') (t : List Char) :
    replCR (c :: t) = c :: replCR t := by
  conv_lhs => unfold replCR
  split
  · rename_i heq
    exact absurd heq (List.cons_ne_nil c t)
  · rename_i heq
    injection heq with h1 _
    exact absurd h1 h
  · rename_i heq
    injection heq with h1 h2
    rw [← h1, ← h2]

theorem replEscRN_id {s : List Char} (h : ∀ c ∈ s, c ≠ '\\') : replEscRN s = s := by
  induction s with
  | nil => rfl
  | cons c t ih =>
    rw [replEscRN_skip (h c (by simp)) t, ih (fun x hx => h x (by simp [hx]))]

theorem replEscN_id {s : List Char} (h : ∀ c ∈ s, c ≠ '\\') : replEscN s = s := by
  induction s with
  | nil => rfl
  | cons c t ih =>
    rw [replEscN_skip (h c (by simp)) t, ih (fun x hx => h x (by simp [hx]))]

theorem replCRLF_id_no_cr {s : List Char} (h : ∀ c ∈ s, c ≠ '\r') : replCRLF s = s := by
  induction s with
  | nil => rfl
  | cons c t ih =>
    rw [replCRLF_skip (h c (by simp)) t, ih (fun x hx => h x (by simp [hx]))]

theorem replCRLF_id_no_lf {s : List Char} (h : ∀ c ∈ s, c ≠ '\n') : replCRLF s = s := by
  induction s with
  | nil => rfl
  | cons c t ih =>
    have ht : ∀ x ∈ t, x ≠ '\n' := fun x hx => h x (by simp [hx])
    by_cases hc : c = '\r'
    · subst hc
      have hh : t.head? ≠ some '\n' := by
        cases t with
        | nil => simp
        | cons c2 t2 =>
          simp only [List.head?_cons, ne_eq, Option.some.injEq]
          exact h c2 (by simp)
      rw [replCRLF_cr hh, ih ht]
    · rw [replCRLF_skip hc t, ih ht]

theorem replCR_id {s : List Char} (h : ∀ c ∈ s, c ≠ '\r') : replCR s = s := by
  induction s with
  | nil => rfl
  | cons c t ih =>
    rw [replCR_skip (h c (by simp)) t, ih (fun x hx => h x (by simp [hx]))]

theorem replEscRN_append {l : List Char} (h : ∀ c ∈ l, c ≠ '\\') (s : List Char) :
    replEscRN (l ++ s) = l ++ replEscRN s := by
  induction l with
  | nil => simp
  | cons c t ih =>
    simp only [List.cons_append]
    rw [replEscRN_skip (h c (by simp)), ih (fun x hx => h x (by simp [hx]))]

theorem replEscN_append {l : List Char} (h : ∀ c ∈ l, c ≠ '\\') (s : List Char) :
    replEscN (l ++ s) = l ++ replEscN s := by
  induction l with
  | nil => simp
  | cons c t ih =>
    simp only [List.cons_append]
    rw [replEscN_skip (h c (by simp)), ih (fun x hx => h x (by simp [hx]))]

theorem replCRLF_append {l : List Char} (h : ∀ c ∈ l, c ≠ '\r') (s : List Char) :
    replCRLF (l ++ s) = l ++ replCRLF s := by
  induction l with
  | nil => simp
  | cons c t ih =>
    simp only [List.cons_append]
    rw [replCRLF_skip (h c (by simp)), ih (fun x hx => h x (by simp [hx]))]

theorem replCR_append {l : List Char} (h : ∀ c ∈ l, c ≠ '\r') (s : List Char) :
    replCR (l ++ s) = l ++ replCR s := by
  induction l with
  | nil => simp
  | cons c t ih =>
    simp only [List.cons_append]
    rw [replCR_skip (h c (by simp)), ih (fun x hx => h x (by simp [hx]))]

theorem mem_joinSep (sep : List Char) :
    ∀ (ls : List (List Char)) (c : Char), c ∈ joinSep sep ls →
      c ∈ sep ∨ ∃ l ∈ ls, c ∈ l := by
  intro ls c
  induction ls with
  | nil => intro h; simp [joinSep] at h
  | cons l rest ih =>
    cases rest with
    | nil =>
      intro h
      simp only [joinSep] at h
      exact Or.inr ⟨l, by simp, h⟩
    | cons l2 rest2 =>
      intro h
      simp only [joinSep] at h
      rcases List.mem_append.mp h with h | h
      · exact Or.inr ⟨l, by simp, h⟩
      · rcases List.mem_append.mp h with h | h
        · exact Or.inl h
        · rcases ih h with h | ⟨l', hl', hc⟩
          · exact Or.inl h
          · exact Or.inr ⟨l', by simp [hl'], hc⟩

theorem joinSep_forall_ne {sep : List Char} {ls : List (List Char)} {a : Char}
    (hsep : ∀ c ∈ sep, c ≠ a)
    (h : ∀ l ∈ ls, ∀ c ∈ l, cleanChar c = true)
    (hstar : ∀ c : Char, cleanChar c = true → c ≠ a) :
    ∀ c ∈ joinSep sep ls, c ≠ a := by
  intro c hc
  rcases mem_joinSep sep ls c hc with hs | ⟨l, hl, hcl⟩
  · exact hsep c hs
  · exact hstar c (h l hl c hcl)

theorem replCRLF_joinSep_crlf :
    ∀ ls : List (List Char), (∀ l ∈ ls, ∀ c ∈ l, cleanChar c = true) →
      replCRLF (joinSep ['\r', '\n'] ls) = joinSep ['\n'] ls := by
  intro ls
  induction ls with
  | nil => intro _; rfl
  | cons l rest ih =>
    intro h
    have hl : ∀ c ∈ l, c ≠ '\r' := fun c hc => (cleanChar_ne (h l (by simp) c hc)).2.1
    cases rest with
    | nil => exact replCRLF_id_no_cr hl
    | cons l2 rest2 =>
      have hrest : ∀ l' ∈ l2 :: rest2, ∀ c ∈ l', cleanChar c = true :=
        fun l' hl' => h l' (by simp [hl'])
      simp only [joinSep, List.cons_append, List.nil_append]
      rw [replCRLF_append hl, replCRLF_hit, ih hrest]

theorem replCR_joinSep_cr :
    ∀ ls : List (List Char), (∀ l ∈ ls, ∀ c ∈ l, cleanChar c = true) →
      replCR (joinSep ['\r'] ls) = joinSep ['\n'] ls := by
  intro ls
  induction ls with
  | nil => intro _; rfl
  | cons l rest ih =>
    intro h
    have hl : ∀ c ∈ l, c ≠ '\r' := fun c hc => (cleanChar_ne (h l (by simp) c hc)).2.1
    cases rest with
    | nil => exact replCR_id hl
    | cons l2 rest2 =>
      have hrest : ∀ l' ∈ l2 :: rest2, ∀ c ∈ l', cleanChar c = true :=
        fun l' hl' => h l' (by simp [hl'])
      simp only [joinSep, List.cons_append, List.nil_append]
      rw [replCR_append hl, replCR_hit, ih hrest]

theorem replEscRN_joinSep_escn :
    ∀ ls : List (List Char), (∀ l ∈ ls, ∀ c ∈ l, cleanChar c = true) →
      replEscRN (joinSep ['\\', 'n'] ls) = joinSep ['\\', 'n'] ls := by
  intro ls
  induction ls with
  | nil => intro _; rfl
  | cons l rest ih =>
    intro h
    have hl : ∀ c ∈ l, c ≠ '\\' := fun c hc => (cleanChar_ne (h l (by simp) c hc)).1
    cases rest with
    | nil => exact replEscRN_id hl
    | cons l2 rest2 =>
      have hrest : ∀ l' ∈ l2 :: rest2, ∀ c ∈ l', cleanChar c = true :=
        fun l' hl' => h l' (by simp [hl'])
      simp only [joinSep, List.cons_append, List.nil_append]
      rw [replEscRN_append hl, replEscRN_escn, ih hrest]

theorem replEscN_joinSep_escn :
    ∀ ls : List (List Char), (∀ l ∈ ls, ∀ c ∈ l, cleanChar c = true) →
      replEscN (joinSep ['\\', 'n'] ls) = joinSep ['\n'] ls := by
  intro ls
  induction ls with
  | nil => intro _; rfl
  | cons l rest ih =>
    intro h
    have hl : ∀ c ∈ l, c ≠ '\\' := fun c hc => (cleanChar_ne (h l (by simp) c hc)).1
    cases rest with
    | nil => exact replEscN_id hl
    | cons l2 rest2 =>
      have hrest : ∀ l' ∈ l2 :: rest2, ∀ c ∈ l', cleanChar c = true :=
        fun l' hl' => h l' (by simp [hl'])
      simp only [joinSep, List.cons_append, List.nil_append]
      rw [replEscN_append hl, replEscN_hit, ih hrest]

theorem replEscRN_joinSep_escrn :
    ∀ ls : List (List Char), (∀ l ∈ ls, ∀ c ∈ l, cleanChar c = true) →
      replEscRN (joinSep ['\\', 'r', '\\', 'n'] ls) = joinSep ['\n'] ls := by
  intro ls
  induction ls with
  | nil => intro _; rfl
  | cons l rest ih =>
    intro h
    have hl : ∀ c ∈ l, c ≠ '\\' := fun c hc => (cleanChar_ne (h l (by simp) c hc)).1
    cases rest with
    | nil => exact replEscRN_id hl
    | cons l2 rest2 =>
      have hrest : ∀ l' ∈ l2 :: rest2, ∀ c ∈ l', cleanChar c = true :=
        fun l' hl' => h l' (by simp [hl'])
      simp only [joinSep, List.cons_append, List.nil_append]
      rw [replEscRN_append hl, replEscRN_hit, ih hrest]

theorem splitOn_joinSep_nl :
    ∀ ls : List (List Char), ls ≠ [] →
      (∀ l ∈ ls, ∀ c ∈ l, cleanChar c = true) →
      (joinSep ['\n'] ls).splitOn '\n' = ls := by
  intro ls
  induction ls with
  | nil => intro hne _; exact absurd rfl hne
  | cons l rest ih =>
    intro _ h
    have hl : ∀ x ∈ l, ¬((x == '\n') = true) := by
      intro x hx
      simp only [beq_iff_eq]
      exact (cleanChar_ne (h l (by simp) x hx)).2.2
    cases rest with
    | nil =>
      show (joinSep ['\n'] [l]).splitOn '\n' = [l]
      simp only [joinSep, List.splitOn]
      exact List.splitOnP_eq_single _ _ hl
    | cons l2 rest2 =>
      have hrest : ∀ l' ∈ l2 :: rest2, ∀ c ∈ l', cleanChar c = true :=
        fun l' hl' => h l' (by simp [hl'])
      simp only [joinSep, List.cons_append, List.nil_append, List.splitOn]
      rw [List.splitOnP_first _ _ hl '\n' (by simp) _]
      have hih := ih (by simp) hrest
      simp only [List.splitOn] at hih
      rw [hih]

/-- C2 (counterexample): encoding-invariance fails for arbitrary logical
lines.  For the lines `a\r` (a line that happens to contain a literal
backslash-`r`) and `b`, joining with the two-character escape `\n` and
normalizing yields `[a, b]` — the first replacement pass sees
backslash-`r`-backslash-`n` — while joining the same lines with a real LF
yields `[a\r, b]`. -/
theorem claim_C2_counterexample :
    normalizeSplit (joinSep ['\\', 'n'] [['a', '\\', 'r'], ['b']]) ≠
      normalizeSplit (joinSep ['\n'] [['a', '\\', 'r'], ['b']]) := by
  decide

/-- C2 (amended): for every nonempty sequence of logical lines that contain no
backslash, CR or LF characters, joining with a real LF, CRLF or CR, or with the
literal escape sequences backslash-`n` or backslash-`r`-backslash-`n`, and then
normalizing, recovers exactly the original line sequence — so all five
encodings yield identical output. -/
theorem claim_C2_amended :
    ∀ ls : List (List Char), ls ≠ [] →
      (∀ l ∈ ls, ∀ c ∈ l, cleanChar c = true) →
      normalizeSplit (joinSep ['\n'] ls) = ls ∧
      normalizeSplit (joinSep ['\r', '\n'] ls) = ls ∧
      normalizeSplit (joinSep ['\r'] ls) = ls ∧
      normalizeSplit (joinSep ['\\', 'n'] ls) = ls ∧
      normalizeSplit (joinSep ['\\', 'r', '\\', 'n'] ls) = ls := by
  intro ls hne h
  have hstarBS : ∀ c : Char, cleanChar c = true → c ≠ '\\' := fun c hc => (cleanChar_ne hc).1
  have hstarCR : ∀ c : Char, cleanChar c = true → c ≠ '\r' := fun c hc => (cleanChar_ne hc).2.1
  have hstarLF : ∀ c : Char, cleanChar c = true → c ≠ '\n' := fun c hc => (cleanChar_ne hc).2.2
  have hBSnl : ∀ c ∈ joinSep ['\n'] ls, c ≠ '\\' := joinSep_forall_ne (by decide) h hstarBS
  have hCRnl : ∀ c ∈ joinSep ['\n'] ls, c ≠ '\r' := joinSep_forall_ne (by decide) h hstarCR
  refine ⟨?_, ?_, ?_, ?_, ?_⟩
  · unfold normalizeSplit normalizeResults
    rw [replEscRN_id hBSnl, replEscN_id hBSnl, replCRLF_id_no_cr hCRnl, replCR_id hCRnl]
    exact splitOn_joinSep_nl ls hne h
  · have hBS : ∀ c ∈ joinSep ['\r', '\n'] ls, c ≠ '\\' :=
      joinSep_forall_ne (by decide) h hstarBS
    unfold normalizeSplit normalizeResults
    rw [replEscRN_id hBS, replEscN_id hBS, replCRLF_joinSep_crlf ls h, replCR_id hCRnl]
    exact splitOn_joinSep_nl ls hne h
  · have hBS : ∀ c ∈ joinSep ['\r'] ls, c ≠ '\\' :=
      joinSep_forall_ne (by decide) h hstarBS
    have hLF : ∀ c ∈ joinSep ['\r'] ls, c ≠ '\n' :=
      joinSep_forall_ne (by decide) h hstarLF
    unfold normalizeSplit normalizeResults
    rw [replEscRN_id hBS, replEscN_id hBS, replCRLF_id_no_lf hLF, replCR_joinSep_cr ls h]
    exact splitOn_joinSep_nl ls hne h
  · have hCR : ∀ c ∈ joinSep ['\\', 'n'] ls, c ≠ '\r' :=
      joinSep_forall_ne (by decide) h hstarCR
    unfold normalizeSplit normalizeResults
    rw [replEscRN_joinSep_escn ls h, replEscN_joinSep_escn ls h,
      replCRLF_id_no_cr hCRnl, replCR_id hCRnl]
    exact splitOn_joinSep_nl ls hne h
  · unfold normalizeSplit normalizeResults
    rw [replEscRN_joinSep_escrn ls h, replEscN_id hBSnl,
      replCRLF_id_no_cr hCRnl, replCR_id hCRnl]
    exact splitOn_joinSep_nl ls hne h

/-- C2 (witness for the amended claim): all five encodings of the clean lines
`a`, `b` normalize back to those lines. -/
theorem claim_C2_witness :
    normalizeSplit (joinSep ['\n'] [['a'], ['b']]) = [['a'], ['b']] ∧
    normalizeSplit (joinSep ['\r', '\n'] [['a'], ['b']]) = [['a'], ['b']] ∧
    normalizeSplit (joinSep ['\r'] [['a'], ['b']]) = [['a'], ['b']] ∧
    normalizeSplit (joinSep ['\\', 'n'] [['a'], ['b']]) = [['a'], ['b']] ∧
    normalizeSplit (joinSep ['\\', 'r', '\\', 'n'] [['a'], ['b']]) = [['a'], ['b']] :=
  claim_C2_amended [['a'], ['b']] (by decide) (by decide)

